import Mathlib

/-!
Shallow embedding of the flag-animation core of `main.py`
(repository reticivis-net/animatedprideflags).

Numeric values (stripe sizes, colors, times, percentages) are modelled as
rationals.  Code paths that raise in Python (the `assert` in `Flag.split`,
division by zero) are modelled with `Option` or noted next to the
definition.  The cubic-Bezier easing produced by `bezier`/`sympy`
(`curve1.implicitize()` solved for `y`) is modelled relationally: `Eased
percent ep` holds when some curve parameter `t ∈ [0,1]` of the Bezier curve
with control points (0,0), (.5,0), (.5,1), (1,1) sends the clamped
`percent` to `ep`.
-/

namespace AnimatedPrideFlags

/-- Model of `FlagStripe` from `main.py`: an RGB color and a fractional height. -/
structure FlagStripe where
  color : ℚ × ℚ × ℚ
  size : ℚ
deriving DecidableEq

instance : Inhabited FlagStripe := ⟨⟨(0, 0, 0), 0⟩⟩

/-- Model of `FlagStripe.__add__`: sizes add; equal colors are kept, unequal colors
are averaged by relative size (that branch is never reached by the
constructor merge, which only adds stripes of equal color). -/
def FlagStripe.add (a b : FlagStripe) : FlagStripe :=
  let newsize := a.size + b.size
  if a.color = b.color then ⟨a.color, newsize⟩
  else
    ⟨((a.color.1 * (a.size / newsize) + b.color.1 * (b.size / newsize)) / 2,
      (a.color.2.1 * (a.size / newsize) + b.color.2.1 * (b.size / newsize)) / 2,
      (a.color.2.2 * (a.size / newsize) + b.color.2.2 * (b.size / newsize)) / 2),
     newsize⟩

/-- Model of `FlagStripe.split(times)`: `times` copies of the stripe, each with
`size / times`. -/
def FlagStripe.split (s : FlagStripe) (times : ℕ) : List FlagStripe :=
  List.replicate times ⟨s.color, s.size / (times : ℚ)⟩

/-- The `f_type` literal of `FlagImage`: "center", "left" or "static". -/
inductive FType
  | center
  | left
  | static
deriving DecidableEq

/-- Model of `FlagImage` from `main.py` (the sprite bitmap itself is presentation
only and omitted; `name`, position, opacity, scale and type are kept). -/
structure FlagImage where
  name : String
  x : ℚ
  y : ℚ
  opacity : ℚ
  scale : ℚ
  ftype : FType
deriving DecidableEq

/-- Model of `Flag`: an ordered list of stripes plus overlay images (the display
`name` string is presentation only and omitted). -/
structure Flag where
  stripes : List FlagStripe
  images : List FlagImage
deriving DecidableEq

/-- Total of the stripe sizes of a list. -/
def sizeSum (l : List FlagStripe) : ℚ := (l.map FlagStripe.size).sum

/-- Inner state of the merging loop of `Flag.__init__`: `cur` is
`combined_stripes[-1]`, the stripe currently being accumulated. -/
def combineAux (cur : FlagStripe) : List FlagStripe → List FlagStripe
  | [] => [cur]
  | s :: rest =>
    if s.color = cur.color then combineAux (cur.add s) rest
    else cur :: combineAux s rest

/-- The `allow_stripes_to_combine` loop of `Flag.__init__`: fold each
stripe into the previous one when the colors coincide. -/
def combineStripes : List FlagStripe → List FlagStripe
  | [] => []
  | s :: rest => combineAux s rest

/-- Model of `Flag.__init__` on a list of `FlagStripe`s (the tuple/hex-string stripe
conversions only build `FlagStripe`s and are not needed by any claim):
optionally merge equal-color neighbours, optionally reverse. -/
def mkFlag (stripes : List FlagStripe) (images : List FlagImage)
    (reverse : Bool) (allow_stripes_to_combine : Bool) : Flag :=
  let st := if allow_stripes_to_combine then combineStripes stripes else stripes
  ⟨if reverse then st.reverse else st, images⟩

/-- Ceiling division `math.ceil(a / b)` on naturals. -/
def ceilDiv (a b : ℕ) : ℕ := (a + b - 1) / b

/-- The stripe loop of `Flag.split`: `toAdd` is `new_stripes_to_add`. -/
def splitLoop (split_by : ℕ) : List FlagStripe → ℕ → List FlagStripe
  | [], _ => []
  | s :: rest, toAdd =>
    if split_by ≤ toAdd then
      s.split split_by ++ splitLoop split_by rest (toAdd - (split_by - 1))
    else if 0 < toAdd then
      s.split (toAdd + 1) ++ splitLoop split_by rest 0
    else
      s :: splitLoop split_by rest toAdd

/-- Model of `Flag.split(num_of_stripes)`.  Returns `none` where Python raises: the
`assert num_of_stripes > len(self.stripes)` and, for an empty stripe list,
the `ZeroDivisionError` in `math.ceil(num_of_stripes / len(self.stripes))`.
The result is wrapped exactly as in the source:
`Flag(output, images=self.images, allow_stripes_to_combine=False)`. -/
def Flag.split (f : Flag) (num_of_stripes : ℕ) : Option Flag :=
  if f.stripes.length < num_of_stripes ∧ 0 < f.stripes.length then
    some (mkFlag
      (splitLoop (ceilDiv num_of_stripes f.stripes.length) f.stripes
        (num_of_stripes - f.stripes.length))
      f.images false false)
  else none

/-- The loop of `Flag.midpoint`: arguments are the remaining stripes,
`rolling_sum` and `numstripes`.  When the loop runs off the end of the
list Python divides by the initial `final_stripe_size = 0`; rational
division by zero stands in for that error (see `midpointDefinedB`). -/
def midpointAux : List FlagStripe → ℚ → ℕ → ℕ × ℚ
  | [], rolling, num => (num, (1 / 2 - rolling) / 0)
  | s :: rest, rolling, num =>
    if rolling + s.size < 1 / 2 then midpointAux rest (rolling + s.size) (num + 1)
    else (num, (1 / 2 - rolling) / s.size)

/-- Model of `Flag.midpoint()`: index of the stripe holding height `.5`, and the
fraction of that stripe below `.5`. -/
def Flag.midpoint (f : Flag) : ℕ × ℚ := midpointAux f.stripes 0 0

/-- True exactly when the loop of `Flag.midpoint` breaks at some stripe and
the divisor `final_stripe_size` at that break is positive, i.e. when the
Python computation performs no division by zero. -/
def midpointDefinedB : List FlagStripe → ℚ → Bool
  | [], _ => false
  | s :: rest, rolling =>
    if rolling + s.size < 1 / 2 then midpointDefinedB rest (rolling + s.size)
    else decide (0 < s.size)

/-- Clamping step `max(min(percent, 1), 0)` of `transition`. -/
def clamp01 (p : ℚ) : ℚ := max (min p 1) 0

/-- x-coordinate of the easing Bezier curve (`nodes1` x-row `0, .5, .5, 1`). -/
def Bx (t : ℚ) : ℚ :=
  3 * (1 - t) ^ 2 * t * (1 / 2) + 3 * (1 - t) * t ^ 2 * (1 / 2) + t ^ 3

/-- y-coordinate of the easing Bezier curve (`nodes1` y-row `0, 0, 1, 1`). -/
def By (t : ℚ) : ℚ := 3 * (1 - t) * t ^ 2 + t ^ 3

/-- Holds when `ep` is the eased value `beizerexpr.subs(x, ...)` of `percent`: some
curve parameter `t ∈ [0,1]` maps to the point `(clamp01 percent, ep)`. -/
def Eased (percent ep : ℚ) : Prop :=
  ∃ t : ℚ, 0 ≤ t ∧ t ≤ 1 ∧ Bx t = clamp01 percent ∧ ep = By t

/-- The final linear blend of `transition(start, end, percent)`; `ep` is
the clamped, eased percentage (related to the raw one by `Eased`). -/
def transition (start e ep : ℚ) : ℚ := start * (1 - ep) + e * ep

/-- Python `int(...)` on a rational: truncation toward zero. -/
def pyInt (q : ℚ) : ℤ := if q < 0 then -Int.floor (-q) else Int.floor q

/-- One iteration of the stripe loop of `transition_flags`: blend the
three color channels and the size of a stripe pair. -/
def stripeBlend (ep : ℚ) (s1 s2 : FlagStripe) : FlagStripe :=
  ⟨(transition s1.color.1 s2.color.1 ep,
    transition s1.color.2.1 s2.color.2.1 ep,
    transition s1.color.2.2 s2.color.2.2 ep),
   transition s1.size s2.size ep⟩

/-- The stripe loop of `transition_flags`: pairwise blend of colors and
sizes (`flag2.stripes[i]` for each index `i` of `flag1.stripes`). -/
def outStripes (f1 f2 : Flag) (ep : ℚ) : List FlagStripe :=
  List.zipWith (stripeBlend ep) f1.stripes f2.stripes

/-- Computation `height_of_midpoint` of `transition_flags`: cumulative size of the
interpolated stripes below the source midpoint index, plus the midpoint
fraction of the stripe at that index. -/
def midHeightFor (src : Flag) (out : List FlagStripe) : ℚ :=
  sizeSum (out.take src.midpoint.1) +
    ((out.get? src.midpoint.1).getD default).size * src.midpoint.2

/-- The per-image mutation of `transition_flags`: opacity always set,
`y` set for "center" images, `x` set for "left" images. -/
def mutateImage (newOpacity : ℤ) (yCenter xLeft : ℚ) (im : FlagImage) : FlagImage :=
  { im with
    opacity := (newOpacity : ℚ)
    y := if im.ftype = FType.center then yCenter else im.y
    x := if im.ftype = FType.left then xLeft else im.x }

/-- Model of `transition_flags(flag1, flag2, percent)`.  `ep` is the eased clamped
percent shared by every `transition` call; the raw `percent` is used for
the opacities (`int(255 * (1 - percent))`, `int(255 * percent)`).  Returns
the new flag (built with the combining constructor, as in the source)
together with the post-mutation states of `flag1` and `flag2`, whose image
objects are updated in place by the Python code. -/
def transition_flags (flag1 flag2 : Flag) (percent ep : ℚ) : Flag × Flag × Flag :=
  let outflag := outStripes flag1 flag2 ep
  let h2 := midHeightFor flag2 outflag
  let h1 := midHeightFor flag1 outflag
  let ims1 := flag1.images.map
    (mutateImage (pyInt (255 * (1 - percent))) h1 (transition (1 / 2) 0 ep))
  let ims2 := flag2.images.map
    (mutateImage (pyInt (255 * percent)) h2 (transition 0 (1 / 2) ep))
  (mkFlag outflag (ims1 ++ ims2) false true,
   { flag1 with images := ims1 },
   { flag2 with images := ims2 })

/-- The repeated-subtraction `while index >= len(flags): index -= len(flags)`
loops of `update` (the loops do not terminate for an empty flag list; the
theorems assume at least one flag, as the program provides). -/
def whileReduceZ (i : ℤ) (N : ℕ) : ℤ :=
  if h : 0 < N ∧ (N : ℤ) ≤ i then whileReduceZ (i - N) N else i
termination_by i.toNat
decreasing_by
  obtain ⟨h1, h2⟩ := h
  omega

/-- Value of `current_index` in `update` after its while loop:
`math.floor(current_time / time_to_transition)` reduced by `len(flags)`. -/
def update_current_index (t ttt : ℚ) (N : ℕ) : ℤ :=
  whileReduceZ (Int.floor (t / ttt)) N

/-- Value of `next_index` in `update` after its while loop. -/
def update_next_index (t ttt : ℚ) (N : ℕ) : ℤ :=
  whileReduceZ (Int.floor (t / ttt) + 1) N

/-- The pair `(flags[current_index], flags[next_index])` read by `update`. -/
def update_select (flags : List Flag) (t ttt : ℚ) : Option Flag × Option Flag :=
  (flags.get? (update_current_index t ttt flags.length).toNat,
   flags.get? (update_next_index t ttt flags.length).toNat)

/-- The stripe-count equalization of `update`: the flag with fewer stripes
is split to the count of the other before `transition_flags` is called. -/
def update_equalize (cf nf : Flag) : Option (Flag × Flag) :=
  if nf.stripes.length < cf.stripes.length then
    (nf.split cf.stripes.length).map (fun nf2 => (cf, nf2))
  else if cf.stripes.length < nf.stripes.length then
    (cf.split nf.stripes.length).map (fun cf2 => (cf2, nf))
  else some (cf, nf)

/-- All list accesses of `transition_flags(f1, f2, _)` are within bounds:
`flag2.stripes[i]` exists for every index `i` of `flag1.stripes`, and
`outflag` (of length `min`) is defined at both flags' midpoint indices. -/
def transitionAccessesOk (f1 f2 : Flag) : Prop :=
  f1.stripes.length ≤ f2.stripes.length ∧
  f2.midpoint.1 < min f1.stripes.length f2.stripes.length ∧
  f1.midpoint.1 < min f1.stripes.length f2.stripes.length

/-- Color shown at fractional height `d` of a stripe list when drawn
bottom-up, as `Flag.draw` stacks its rectangles. -/
def colorAt : List FlagStripe → ℚ → Option (ℚ × ℚ × ℚ)
  | [], _ => none
  | s :: rest, d => if d < s.size then some s.color else colorAt rest (d - s.size)

/-- Modelled from the spec sentence of C1: `b` refines `a` when each stripe
of `a` is replaced, in place and in order, by a nonempty block of
consecutive stripes of the same color with non-negative sizes summing to
the original size. -/
inductive Refines : List FlagStripe → List FlagStripe → Prop
  | nil : Refines [] []
  | cons (s : FlagStripe) (ps rest out : List FlagStripe) :
      ps ≠ [] → (∀ p ∈ ps, p.color = s.color ∧ 0 ≤ p.size) →
      sizeSum ps = s.size → Refines rest out → Refines (s :: rest) (ps ++ out)

/-- Helper: `dropWhile` never lengthens a list. -/
theorem dropWhileLength_le {α : Type} (p : α → Bool) :
    ∀ l : List α, (l.dropWhile p).length ≤ l.length := by
  intro l
  induction l with
  | nil => simp [List.dropWhile]
  | cons a l ih =>
    by_cases h : p a
    · simp only [List.dropWhile, h]
      exact Nat.le_succ_of_le ih
    · simp [List.dropWhile, h]

/-- Modelled from the spec sentence of C7: one output stripe per maximal
run of adjacent equal-color input stripes, carrying the shared color and
the run's total size. -/
def mergeRunsSpec : List FlagStripe → List FlagStripe
  | [] => []
  | s :: rest =>
    FlagStripe.mk s.color
        (s.size + sizeSum (rest.takeWhile fun t => decide (t.color = s.color))) ::
      mergeRunsSpec (rest.dropWhile fun t => decide (t.color = s.color))
termination_by l => l.length
decreasing_by
  simp only [List.length_cons]
  exact Nat.lt_succ_of_le (dropWhileLength_le _ rest)

/-- Relation between an overlay image and its state after
`transition_flags`: opacity set, `y` set to the landmark for "center"
images, `x` eased for "left" images, everything else untouched. -/
def imageMutated (newOpacity : ℤ) (yCenter xLeft : ℚ) (im im2 : FlagImage) : Prop :=
  im2.opacity = (newOpacity : ℚ) ∧
  (im.ftype = FType.center → im2.y = yCenter ∧ im2.x = im.x) ∧
  (im.ftype = FType.left → im2.x = xLeft ∧ im2.y = im.y) ∧
  (im.ftype = FType.static → im2.x = im.x ∧ im2.y = im.y) ∧
  im2.scale = im.scale ∧ im2.ftype = im.ftype ∧ im2.name = im.name

theorem sizeSum_nil : sizeSum [] = 0 := rfl

theorem sizeSum_cons (s : FlagStripe) (l : List FlagStripe) :
    sizeSum (s :: l) = s.size + sizeSum l := by
  simp [sizeSum]

theorem sizeSum_append (l1 l2 : List FlagStripe) :
    sizeSum (l1 ++ l2) = sizeSum l1 + sizeSum l2 := by
  simp [sizeSum]

theorem sizeSum_nonneg {l : List FlagStripe} (h : ∀ s ∈ l, 0 ≤ s.size) :
    0 ≤ sizeSum l := by
  induction l with
  | nil => simp [sizeSum_nil]
  | cons a l ih =>
    rw [sizeSum_cons]
    have ha := h a (List.mem_cons_self a l)
    have hl := ih fun s hs => h s (List.mem_cons_of_mem a hs)
    linarith

theorem FlagStripe.add_size (a b : FlagStripe) : (a.add b).size = a.size + b.size := by
  rw [FlagStripe.add]
  split <;> rfl

theorem FlagStripe.add_of_color_eq {a b : FlagStripe} (h : a.color = b.color) :
    a.add b = ⟨a.color, a.size + b.size⟩ := by
  rw [FlagStripe.add, if_pos h]

theorem combineAux_sizeSum :
    ∀ (l : List FlagStripe) (cur : FlagStripe),
      sizeSum (combineAux cur l) = cur.size + sizeSum l := by
  intro l
  induction l with
  | nil => intro cur; simp [combineAux, sizeSum_cons, sizeSum_nil]
  | cons s rest ih =>
    intro cur
    rw [combineAux]
    by_cases h : s.color = cur.color
    · rw [if_pos h, ih, FlagStripe.add_size, sizeSum_cons]
      ring
    · rw [if_neg h, sizeSum_cons, ih, sizeSum_cons]

theorem combineAux_nonneg :
    ∀ (l : List FlagStripe) (cur : FlagStripe), 0 ≤ cur.size →
      (∀ s ∈ l, 0 ≤ s.size) → ∀ s ∈ combineAux cur l, 0 ≤ s.size := by
  intro l
  induction l with
  | nil =>
    intro cur hc _ s hs
    rw [combineAux, List.mem_singleton] at hs
    exact hs ▸ hc
  | cons a rest ih =>
    intro cur hc hl s hs
    rw [combineAux] at hs
    by_cases h : a.color = cur.color
    · rw [if_pos h] at hs
      have ha : 0 ≤ (cur.add a).size := by
        rw [FlagStripe.add_size]
        have := hl a (List.mem_cons_self a rest)
        linarith
      exact ih (cur.add a) ha (fun t ht => hl t (List.mem_cons_of_mem a ht)) s hs
    · rw [if_neg h, List.mem_cons] at hs
      rcases hs with hs | hs
      · exact hs ▸ hc
      · exact ih a (hl a (List.mem_cons_self a rest))
          (fun t ht => hl t (List.mem_cons_of_mem a ht)) s hs

theorem combineStripes_sizeSum (l : List FlagStripe) :
    sizeSum (combineStripes l) = sizeSum l := by
  cases l with
  | nil => rfl
  | cons s rest => rw [combineStripes, combineAux_sizeSum, sizeSum_cons]

theorem combineStripes_nonneg {l : List FlagStripe} (h : ∀ s ∈ l, 0 ≤ s.size) :
    ∀ s ∈ combineStripes l, 0 ≤ s.size := by
  cases l with
  | nil => intro s hs; simp [combineStripes] at hs
  | cons a rest =>
    rw [combineStripes]
    exact combineAux_nonneg rest a (h a (List.mem_cons_self a rest))
      (fun t ht => h t (List.mem_cons_of_mem a ht))

theorem dropWhile_head_false {α : Type} (p : α → Bool) :
    ∀ (l : List α) (x : α) (xs : List α), l.dropWhile p = x :: xs → p x = false := by
  intro l
  induction l with
  | nil => intro x xs h; simp [List.dropWhile] at h
  | cons a l ih =>
    intro x xs h
    by_cases hp : p a
    · rw [List.dropWhile_cons_of_pos hp] at h
      exact ih x xs h
    · rw [List.dropWhile_cons_of_neg hp] at h
      cases h
      exact Bool.of_not_eq_true hp

theorem combineAux_eq_mergeRuns :
    ∀ (l : List FlagStripe) (cur : FlagStripe),
      combineAux cur l =
        FlagStripe.mk cur.color
            (cur.size + sizeSum (l.takeWhile fun t => decide (t.color = cur.color))) ::
          mergeRunsSpec (l.dropWhile fun t => decide (t.color = cur.color)) := by
  intro l
  induction l with
  | nil =>
    intro cur
    obtain ⟨c, sz⟩ := cur
    simp [combineAux, mergeRunsSpec, sizeSum_nil]
  | cons s rest ih =>
    intro cur
    rw [combineAux]
    by_cases h : s.color = cur.color
    · rw [if_pos h,
        FlagStripe.add_of_color_eq (show cur.color = s.color from h.symm), ih]
      rw [List.takeWhile_cons_of_pos (by simp [h]),
        List.dropWhile_cons_of_pos (by simp [h]), sizeSum_cons]
      simp [add_assoc]
    · rw [if_neg h, ih s]
      rw [List.takeWhile_cons_of_neg (by simp [h]),
        List.dropWhile_cons_of_neg (by simp [h])]
      rw [mergeRunsSpec]
      obtain ⟨c, sz⟩ := cur
      simp [sizeSum_nil]

theorem combineStripes_eq_mergeRuns (l : List FlagStripe) :
    combineStripes l = mergeRunsSpec l := by
  cases l with
  | nil => rw [mergeRunsSpec]; rfl
  | cons s rest =>
    rw [combineStripes, combineAux_eq_mergeRuns, mergeRunsSpec]

theorem mergeRuns_chain :
    ∀ (l : List FlagStripe),
      List.Chain' (fun a b : FlagStripe => a.color ≠ b.color) (mergeRunsSpec l) := by
  have H : ∀ (n : ℕ) (l : List FlagStripe), l.length ≤ n →
      List.Chain' (fun a b : FlagStripe => a.color ≠ b.color) (mergeRunsSpec l) := by
    intro n
    induction n with
    | zero =>
      intro l hl
      have : l = [] := List.eq_nil_of_length_eq_zero (Nat.le_zero.mp hl)
      subst this
      rw [mergeRunsSpec]
      exact List.chain'_nil
    | succ n ih =>
      intro l hl
      match l with
      | [] =>
        rw [mergeRunsSpec]
        exact List.chain'_nil
      | s :: rest =>
        rw [mergeRunsSpec]
        rcases hd : rest.dropWhile (fun t => decide (t.color = s.color)) with _ | ⟨x, xs⟩
        · rw [hd, mergeRunsSpec]
          exact List.chain'_singleton _
        · rw [hd]
          have hlen : (x :: xs).length ≤ n := by
            have h1 := dropWhileLength_le (fun t => decide (t.color = s.color)) rest
            rw [hd] at h1
            have h2 : rest.length ≤ n := by
              have := hl
              simp only [List.length_cons] at this
              omega
            omega
          have hx : x.color ≠ s.color := by
            have := dropWhile_head_false _ rest x xs hd
            simpa using this
          rw [List.chain'_cons']
          constructor
          · intro y hy
            rw [mergeRunsSpec] at hy
            simp only [List.head?_cons, Option.mem_def, Option.some.injEq] at hy
            subst hy
            exact fun hc => hx (by simpa using hc.symm)
          · exact ih (x :: xs) hlen
  intro l
  exact H l.length l le_rfl

/-- C7: constructing a `Flag` with `allow_stripes_to_combine` true merges
every maximal run of adjacent equal-color stripes into a single stripe with
the shared color and the summed size, keeps differently-colored neighbours
distinct, and preserves the total stripe size. -/
theorem claim_C7 (stripes : List FlagStripe) (images : List FlagImage) :
    (mkFlag stripes images false true).stripes = mergeRunsSpec stripes ∧
    List.Chain' (fun a b : FlagStripe => a.color ≠ b.color)
      ((mkFlag stripes images false true).stripes) ∧
    sizeSum ((mkFlag stripes images false true).stripes) = sizeSum stripes := by
  have hst : (mkFlag stripes images false true).stripes = combineStripes stripes := by
    simp [mkFlag]
  refine ⟨?_, ?_, ?_⟩
  · rw [hst, combineStripes_eq_mergeRuns]
  · rw [hst, combineStripes_eq_mergeRuns]
    exact mergeRuns_chain stripes
  · rw [hst, combineStripes_sizeSum]

theorem sizeSum_replicate (m : ℕ) (s : FlagStripe) :
    sizeSum (List.replicate m s) = m * s.size := by
  induction m with
  | zero => simp [sizeSum_nil]
  | succ m ih =>
    rw [List.replicate_succ, sizeSum_cons, ih]
    push_cast
    ring

theorem le_mul_ceilDiv (n k : ℕ) (hk : 0 < k) : n ≤ k * ceilDiv n k := by
  rw [ceilDiv]
  have h1 := Nat.div_add_mod (n + k - 1) k
  have h2 : (n + k - 1) % k < k := Nat.mod_lt _ hk
  omega

theorem ceilDiv_pos {n k : ℕ} (hk : 0 < k) (hn : 0 < n) : 1 ≤ ceilDiv n k := by
  rw [ceilDiv, Nat.le_div_iff_mul_le hk]
  omega

theorem splitLoop_length (sb : ℕ) (hsb : 1 ≤ sb) :
    ∀ (l : List FlagStripe) (toAdd : ℕ), toAdd ≤ l.length * (sb - 1) →
      (splitLoop sb l toAdd).length = l.length + toAdd := by
  intro l
  induction l with
  | nil =>
    intro toAdd h
    simp only [List.length_nil, Nat.zero_mul, Nat.le_zero] at h
    simp [splitLoop, h]
  | cons s rest ih =>
    intro toAdd h
    have hsucc : (s :: rest).length * (sb - 1) = rest.length * (sb - 1) + (sb - 1) := by
      rw [List.length_cons, Nat.succ_mul]
    rw [hsucc] at h
    rw [splitLoop]
    by_cases h1 : sb ≤ toAdd
    · have hb : toAdd - (sb - 1) ≤ rest.length * (sb - 1) := by omega
      rw [if_pos h1, List.length_append, ih (toAdd - (sb - 1)) hb,
        FlagStripe.split, List.length_replicate, List.length_cons]
      omega
    · rw [if_neg h1]
      by_cases h2 : 0 < toAdd
      · rw [if_pos h2, List.length_append, ih 0 (Nat.zero_le _),
          FlagStripe.split, List.length_replicate, List.length_cons]
        omega
      · rw [if_neg h2]
        simp only [List.length_cons]
        rw [ih toAdd (by omega)]
        omega

theorem refines_block (s : FlagStripe) (m : ℕ) (hm : 1 ≤ m) (hs : 0 ≤ s.size)
    {rest out : List FlagStripe} (hout : Refines rest out) :
    Refines (s :: rest) (s.split m ++ out) := by
  refine Refines.cons s (s.split m) rest out ?_ ?_ ?_ hout
  · intro hc
    have := congrArg List.length hc
    rw [FlagStripe.split, List.length_replicate, List.length_nil] at this
    omega
  · intro p hp
    rw [FlagStripe.split] at hp
    have hp2 := List.eq_of_mem_replicate hp
    subst hp2
    exact ⟨rfl, div_nonneg hs (by positivity)⟩
  · rw [FlagStripe.split, sizeSum_replicate]
    have hm0 : (m : ℚ) ≠ 0 := Nat.cast_ne_zero.mpr (by omega)
    field_simp

theorem splitLoop_refines (sb : ℕ) (hsb : 1 ≤ sb) :
    ∀ (l : List FlagStripe) (toAdd : ℕ), (∀ s ∈ l, 0 ≤ s.size) →
      Refines l (splitLoop sb l toAdd) := by
  intro l
  induction l with
  | nil => intro toAdd _; rw [splitLoop]; exact Refines.nil
  | cons s rest ih =>
    intro toAdd h
    have hs0 : 0 ≤ s.size := h s (List.mem_cons_self s rest)
    have hrest : ∀ t ∈ rest, 0 ≤ t.size := fun t ht => h t (List.mem_cons_of_mem s ht)
    rw [splitLoop]
    by_cases h1 : sb ≤ toAdd
    · rw [if_pos h1]
      exact refines_block s sb (by omega) hs0 (ih _ hrest)
    · rw [if_neg h1]
      by_cases h2 : 0 < toAdd
      · rw [if_pos h2]
        exact refines_block s (toAdd + 1) (by omega) hs0 (ih _ hrest)
      · rw [if_neg h2]
        have hrw : s :: splitLoop sb rest toAdd = [s] ++ splitLoop sb rest toAdd := rfl
        rw [hrw]
        refine Refines.cons s [s] rest _ (by simp) ?_ ?_ (ih _ hrest)
        · intro p hp
          rw [List.mem_singleton] at hp
          exact ⟨hp ▸ rfl, hp ▸ hs0⟩
        · rw [sizeSum_cons, sizeSum_nil, add_zero]

theorem Refines_sizeSum {a b : List FlagStripe} (h : Refines a b) :
    sizeSum b = sizeSum a := by
  induction h with
  | nil => rfl
  | cons s ps rest out hne hcol hsum hrec ih =>
    rw [sizeSum_append, sizeSum_cons, ih, hsum]

theorem colorAt_append_run (c : ℚ × ℚ × ℚ) :
    ∀ (ps out : List FlagStripe), (∀ p ∈ ps, p.color = c ∧ 0 ≤ p.size) →
      ∀ d : ℚ, 0 ≤ d →
        colorAt (ps ++ out) d =
          if d < sizeSum ps then some c else colorAt out (d - sizeSum ps) := by
  intro ps
  induction ps with
  | nil =>
    intro out _ d hd
    rw [List.nil_append, sizeSum_nil, if_neg (by linarith), sub_zero]
  | cons p ps ih =>
    intro out hps d hd
    have hpc := hps p (List.mem_cons_self p ps)
    have hrest : ∀ q ∈ ps, q.color = c ∧ 0 ≤ q.size :=
      fun q hq => hps q (List.mem_cons_of_mem p hq)
    rw [List.cons_append, colorAt, sizeSum_cons]
    by_cases h1 : d < p.size
    · have hles : 0 ≤ sizeSum ps := sizeSum_nonneg fun q hq => (hrest q hq).2
      rw [if_pos h1, if_pos (by linarith), hpc.1]
    · have hple : p.size ≤ d := le_of_not_lt h1
      rw [if_neg h1, ih out hrest (d - p.size) (by linarith)]
      have heq : d - p.size - sizeSum ps = d - (p.size + sizeSum ps) := by ring
      rw [heq]
      by_cases h2 : d < p.size + sizeSum ps
      · rw [if_pos (show d - p.size < sizeSum ps by linarith), if_pos h2]
      · rw [if_neg (show ¬d - p.size < sizeSum ps by intro hcon; exact h2 (by linarith)),
          if_neg h2]

theorem Refines_colorAt {a b : List FlagStripe} (h : Refines a b) :
    ∀ d : ℚ, 0 ≤ d → colorAt b d = colorAt a d := by
  induction h with
  | nil => intro d hd; rfl
  | cons s ps rest out hne hcol hsum hrec ih =>
    intro d hd
    rw [colorAt_append_run s.color ps out hcol d hd, hsum, colorAt]
    by_cases h1 : d < s.size
    · rw [if_pos h1, if_pos h1]
    · rw [if_neg h1, if_neg h1]
      exact ih (d - s.size) (by linarith [le_of_not_lt h1])

theorem Flag.split_eq {f : Flag} {n : ℕ}
    (h1 : f.stripes.length < n) (h2 : 0 < f.stripes.length) :
    f.split n =
      some ⟨splitLoop (ceilDiv n f.stripes.length) f.stripes (n - f.stripes.length),
        f.images⟩ := by
  rw [Flag.split, if_pos ⟨h1, h2⟩]
  rfl

/-- C2: for a flag with at least one stripe and a target count above its
stripe count, `Flag.split` succeeds and the result has exactly `n`
stripes. -/
theorem claim_C2 (f : Flag) (n : ℕ)
    (hk : 0 < f.stripes.length) (hn : f.stripes.length < n) :
    ∃ g : Flag, f.split n = some g ∧ g.stripes.length = n := by
  refine ⟨_, Flag.split_eq hn hk, ?_⟩
  have hsb : 1 ≤ ceilDiv n f.stripes.length := ceilDiv_pos hk (by omega)
  have hmul := le_mul_ceilDiv n f.stripes.length hk
  obtain ⟨m, hm⟩ := Nat.exists_eq_add_of_le hsb
  have hbound : n - f.stripes.length ≤ f.stripes.length * (ceilDiv n f.stripes.length - 1) := by
    rw [hm]
    have hone : 1 + m - 1 = m := by omega
    rw [hone]
    rw [hm, Nat.mul_add, Nat.mul_one] at hmul
    omega
  show (splitLoop (ceilDiv n f.stripes.length) f.stripes (n - f.stripes.length)).length = n
  rw [splitLoop_length _ hsb f.stripes _ hbound]
  omega

/-- C1: under non-negative stripe sizes, a successful `Flag.split` returns
a flag with the same total stripe size in which each original stripe is
replaced, in place and in order, by a block of same-color stripes summing
to its size, so the color at every fractional height is unchanged. -/
theorem claim_C1 (f : Flag) (n : ℕ) (g : Flag)
    (hnn : ∀ s ∈ f.stripes, 0 ≤ s.size)
    (hlt : f.stripes.length < n)
    (hg : f.split n = some g) :
    sizeSum g.stripes = sizeSum f.stripes ∧
    Refines f.stripes g.stripes ∧
    ∀ d : ℚ, 0 ≤ d → colorAt g.stripes d = colorAt f.stripes d := by
  have hpos : 0 < f.stripes.length := by
    by_contra hc
    rw [Flag.split, if_neg (fun hcon => hc hcon.2)] at hg
    cases hg
  rw [Flag.split_eq hlt hpos] at hg
  have hsb : 1 ≤ ceilDiv n f.stripes.length := ceilDiv_pos hpos (by omega)
  have href : Refines f.stripes
      (splitLoop (ceilDiv n f.stripes.length) f.stripes (n - f.stripes.length)) :=
    splitLoop_refines _ hsb f.stripes _ hnn
  cases hg
  exact ⟨Refines_sizeSum href, href, Refines_colorAt href⟩

/-- Two-stripe sample flag used by the concrete witnesses. -/
def sampleA : Flag := ⟨[⟨(1, 0, 0), 1 / 2⟩, ⟨(0, 1, 0), 1 / 2⟩], []⟩

/-- Result of `sampleA.split 3`, written out. -/
def sampleASplit : Flag :=
  ⟨[⟨(1, 0, 0), 1 / 4⟩, ⟨(1, 0, 0), 1 / 4⟩, ⟨(0, 1, 0), 1 / 2⟩], []⟩

theorem sampleA_split_eval : sampleA.split 3 = some sampleASplit := by
  norm_num [Flag.split, sampleA, sampleASplit, ceilDiv, mkFlag, splitLoop,
    FlagStripe.split, List.replicate]

theorem witness_C1 :
    sizeSum sampleASplit.stripes = sizeSum sampleA.stripes ∧
    colorAt sampleASplit.stripes (1 / 3) = colorAt sampleA.stripes (1 / 3) := by
  have h := claim_C1 sampleA 3 sampleASplit
    (by norm_num [sampleA]) (by norm_num [sampleA]) sampleA_split_eval
  exact ⟨h.1, h.2.2 (1 / 3) (by norm_num)⟩

theorem witness_C2 :
    (sampleA.split 3).map (fun g => g.stripes.length) = some 3 := by
  obtain ⟨g, hg, hlen⟩ := claim_C2 sampleA 3 (by norm_num [sampleA]) (by norm_num [sampleA])
  rw [hg]
  simp [hlen]

theorem midpointAux_spec :
    ∀ (l : List FlagStripe) (r : ℚ) (n : ℕ),
      (∀ s ∈ l, 0 ≤ s.size) → 0 ≤ r → r < 1 / 2 → 1 / 2 ≤ r + sizeSum l →
      midpointDefinedB l r = true ∧
      n ≤ (midpointAux l r n).1 ∧
      (midpointAux l r n).1 < n + l.length ∧
      0 ≤ (midpointAux l r n).2 ∧ (midpointAux l r n).2 ≤ 1 ∧
      r + sizeSum (l.take ((midpointAux l r n).1 - n)) +
        ((l.get? ((midpointAux l r n).1 - n)).getD default).size *
          (midpointAux l r n).2 = 1 / 2 := by
  intro l
  induction l with
  | nil =>
    intro r n _ _ hr2 hsum
    rw [sizeSum_nil] at hsum
    linarith
  | cons s rest ih =>
    intro r n hnn hr0 hr2 hsum
    have hs0 : 0 ≤ s.size := hnn s (List.mem_cons_self s rest)
    have hrest : ∀ t ∈ rest, 0 ≤ t.size := fun t ht => hnn t (List.mem_cons_of_mem s ht)
    by_cases hc : r + s.size < 1 / 2
    · have hsum2 : 1 / 2 ≤ (r + s.size) + sizeSum rest := by
        rw [sizeSum_cons] at hsum
        linarith
      obtain ⟨hdef, hge, hlt, hf0, hf1, heq⟩ :=
        ih (r + s.size) (n + 1) hrest (by linarith) hc hsum2
      rw [midpointAux, if_pos hc, midpointDefinedB, if_pos hc]
      refine ⟨hdef, by omega, ?_, hf0, hf1, ?_⟩
      · rw [List.length_cons]
        omega
      · have hidx : (midpointAux rest (r + s.size) (n + 1)).1 - n =
            ((midpointAux rest (r + s.size) (n + 1)).1 - (n + 1)) + 1 := by omega
        rw [hidx, List.take_succ_cons, List.get?_cons_succ, sizeSum_cons]
        linarith [heq]
    · rw [midpointAux, if_neg hc, midpointDefinedB, if_neg hc]
      have hsge : 1 / 2 - r ≤ s.size := by linarith [not_lt.mp hc]
      have hspos : 0 < s.size := by linarith
      refine ⟨by simpa using hspos, le_rfl, ?_, ?_, ?_, ?_⟩
      · rw [List.length_cons]
        omega
      · exact div_nonneg (by linarith) (le_of_lt hspos)
      · rw [div_le_one hspos]
        linarith
      · simp only [Nat.sub_self, List.take_zero, sizeSum_nil, List.get?_cons_zero,
          Option.getD_some, add_zero]
        rw [mul_div_cancel₀ _ (ne_of_gt hspos)]
        ring

/-- C3: with non-negative sizes summing to 1, `Flag.midpoint` breaks at a
stripe of positive size (no division by zero), returns a valid index, and
a fraction in `[0, 1]`. -/
theorem claim_C3 (f : Flag)
    (hnn : ∀ s ∈ f.stripes, 0 ≤ s.size) (hs : sizeSum f.stripes = 1) :
    midpointDefinedB f.stripes 0 = true ∧
    f.midpoint.1 < f.stripes.length ∧
    0 ≤ f.midpoint.2 ∧ f.midpoint.2 ≤ 1 := by
  obtain ⟨hdef, _, hlt, hf0, hf1, _⟩ :=
    midpointAux_spec f.stripes 0 0 hnn le_rfl (by norm_num) (by rw [hs]; norm_num)
  exact ⟨hdef, by simpa using hlt, hf0, hf1⟩

theorem witness_C3 :
    midpointDefinedB sampleA.stripes 0 = true ∧
    sampleA.midpoint.1 < sampleA.stripes.length ∧
    0 ≤ sampleA.midpoint.2 ∧ sampleA.midpoint.2 ≤ 1 :=
  claim_C3 sampleA (by norm_num [sampleA]) (by norm_num [sampleA, sizeSum])

theorem midpoint_height_eq_half (f : Flag)
    (hnn : ∀ s ∈ f.stripes, 0 ≤ s.size) (hs : sizeSum f.stripes = 1) :
    sizeSum (f.stripes.take f.midpoint.1) +
      ((f.stripes.get? f.midpoint.1).getD default).size * f.midpoint.2 = 1 / 2 := by
  obtain ⟨_, _, _, _, _, heq⟩ :=
    midpointAux_spec f.stripes 0 0 hnn le_rfl (by norm_num) (by rw [hs]; norm_num)
  simpa [Flag.midpoint] using heq

theorem sizeSum_take_eq {l1 l2 : List FlagStripe}
    (h : l1.map FlagStripe.size = l2.map FlagStripe.size) (k : ℕ) :
    sizeSum (l1.take k) = sizeSum (l2.take k) := by
  rw [sizeSum, sizeSum, List.map_take, List.map_take, h]

theorem size_get_eq {l1 l2 : List FlagStripe}
    (h : l1.map FlagStripe.size = l2.map FlagStripe.size) (k : ℕ) :
    ((l1.get? k).getD default).size = ((l2.get? k).getD default).size := by
  have h1 : (l1.map FlagStripe.size).get? k = (l2.map FlagStripe.size).get? k := by rw [h]
  rw [List.get?_map, List.get?_map] at h1
  cases hx : l1.get? k <;> cases hy : l2.get? k <;> rw [hx, hy] at h1 <;>
    simp_all

theorem midHeightFor_eq_of_sizes (src : Flag) (out : List FlagStripe)
    (hsz : out.map FlagStripe.size = src.stripes.map FlagStripe.size) :
    midHeightFor src out =
      sizeSum (src.stripes.take src.midpoint.1) +
        ((src.stripes.get? src.midpoint.1).getD default).size * src.midpoint.2 := by
  rw [midHeightFor, sizeSum_take_eq hsz, size_get_eq hsz]

theorem By_zero : By 0 = 0 := by norm_num [By]

theorem By_one : By 1 = 1 := by norm_num [By]

theorem Bx_eq_zero {t : ℚ} (h0 : 0 ≤ t) (h1 : t ≤ 1) (h : Bx t = 0) : t = 0 := by
  by_contra hne
  have ht : 0 < t := lt_of_le_of_ne h0 (Ne.symm hne)
  have h1t : (0 : ℚ) ≤ 1 - t := by linarith
  have hA : (0 : ℚ) ≤ 3 * (1 - t) ^ 2 * t * (1 / 2) :=
    mul_nonneg (mul_nonneg (by positivity) (le_of_lt ht)) (by norm_num)
  have hB : (0 : ℚ) ≤ 3 * (1 - t) * t ^ 2 * (1 / 2) :=
    mul_nonneg (mul_nonneg (mul_nonneg (by norm_num) h1t) (by positivity)) (by norm_num)
  have hC : (0 : ℚ) < t ^ 3 := by positivity
  rw [Bx] at h
  linarith

theorem Bx_eq_one {t : ℚ} (h0 : 0 ≤ t) (h1 : t ≤ 1) (h : Bx t = 1) : t = 1 := by
  by_contra hne
  have ht : t < 1 := lt_of_le_of_ne h1 hne
  have hkey : 1 - Bx t = (1 - t) * (t ^ 2 - t / 2 + 1) := by rw [Bx]; ring
  have hq : (0 : ℚ) < t ^ 2 - t / 2 + 1 := by nlinarith [sq_nonneg (t - 1 / 4)]
  have hpos : (0 : ℚ) < (1 - t) * (t ^ 2 - t / 2 + 1) := mul_pos (by linarith) hq
  rw [h] at hkey
  linarith

theorem By_nonneg {t : ℚ} (h0 : 0 ≤ t) (h1 : t ≤ 1) : 0 ≤ By t := by
  have ha : (0 : ℚ) ≤ 3 * (1 - t) * t ^ 2 :=
    mul_nonneg (mul_nonneg (by norm_num) (by linarith)) (by positivity)
  have hb : (0 : ℚ) ≤ t ^ 3 := pow_nonneg h0 3
  rw [By]
  linarith

theorem By_le_one {t : ℚ} (h0 : 0 ≤ t) (h1 : t ≤ 1) : By t ≤ 1 := by
  have hkey : 1 - By t = (1 - t) ^ 2 * (1 + 2 * t) := by rw [By]; ring
  have hpos : (0 : ℚ) ≤ (1 - t) ^ 2 * (1 + 2 * t) :=
    mul_nonneg (sq_nonneg _) (by linarith)
  linarith

theorem Eased.bounds {p ep : ℚ} (h : Eased p ep) : 0 ≤ ep ∧ ep ≤ 1 := by
  obtain ⟨t, h0, h1, _, hep⟩ := h
  exact ⟨hep ▸ By_nonneg h0 h1, hep ▸ By_le_one h0 h1⟩

theorem eased_eq_zero {p ep : ℚ} (hp : p ≤ 0) (h : Eased p ep) : ep = 0 := by
  obtain ⟨t, h0, h1, hbx, hep⟩ := h
  have hcl : clamp01 p = 0 := by
    rw [clamp01, min_eq_left (le_trans hp zero_le_one), max_eq_right hp]
  rw [hcl] at hbx
  have ht := Bx_eq_zero h0 h1 hbx
  rw [hep, ht, By_zero]

theorem eased_eq_one {p ep : ℚ} (hp : 1 ≤ p) (h : Eased p ep) : ep = 1 := by
  obtain ⟨t, h0, h1, hbx, hep⟩ := h
  have hcl : clamp01 p = 1 := by
    rw [clamp01, min_eq_right hp, max_eq_left zero_le_one]
  rw [hcl] at hbx
  have ht := Bx_eq_one h0 h1 hbx
  rw [hep, ht, By_one]

/-- C8: `transition` clamps its percentage and eases it through the Bezier
curve, which fixes 0 and 1; so any percentage at most 0 returns `start`
and any percentage at least 1 returns `end`. -/
theorem claim_C8 (s e p ep : ℚ) (h : Eased p ep) :
    (p ≤ 0 → transition s e ep = s) ∧ (1 ≤ p → transition s e ep = e) := by
  constructor
  · intro hp
    rw [transition, eased_eq_zero hp h]
    ring
  · intro hp
    rw [transition, eased_eq_one hp h]
    ring

theorem eased_zero_zero : Eased 0 0 :=
  ⟨0, le_rfl, by norm_num, by norm_num [Bx, clamp01], by norm_num [By]⟩

theorem eased_one_one : Eased 1 1 :=
  ⟨1, by norm_num, le_rfl, by norm_num [Bx, clamp01], by norm_num [By]⟩

theorem witness_C8 : transition 2 5 0 = 2 ∧ transition 2 5 1 = 5 :=
  ⟨(claim_C8 2 5 0 0 eased_zero_zero).1 le_rfl,
   (claim_C8 2 5 1 1 eased_one_one).2 le_rfl⟩

theorem stripeBlend_size (ep : ℚ) (s1 s2 : FlagStripe) :
    (stripeBlend ep s1 s2).size = transition s1.size s2.size ep := rfl

theorem zipBlend_sizeSum (ep : ℚ) :
    ∀ l1 l2 : List FlagStripe, l1.length = l2.length →
      sizeSum (List.zipWith (stripeBlend ep) l1 l2) =
        (1 - ep) * sizeSum l1 + ep * sizeSum l2 := by
  intro l1
  induction l1 with
  | nil =>
    intro l2 h
    cases l2 with
    | nil => rw [List.zipWith_nil_right, sizeSum_nil]; ring
    | cons b m => simp at h
  | cons a l ih =>
    intro l2 h
    cases l2 with
    | nil => simp at h
    | cons b m =>
      rw [List.zipWith_cons_cons, sizeSum_cons, sizeSum_cons, sizeSum_cons,
        ih m (by simpa using h), stripeBlend_size, transition]
      ring

theorem zipBlend_nonneg (ep : ℚ) (he0 : 0 ≤ ep) (he1 : ep ≤ 1) :
    ∀ l1 l2 : List FlagStripe,
      (∀ s ∈ l1, 0 ≤ s.size) → (∀ s ∈ l2, 0 ≤ s.size) →
      ∀ s ∈ List.zipWith (stripeBlend ep) l1 l2, 0 ≤ s.size := by
  intro l1
  induction l1 with
  | nil => intro l2 _ _ s hs; simp at hs
  | cons a l ih =>
    intro l2 h1 h2 s hs
    cases l2 with
    | nil => simp at hs
    | cons b m =>
      rw [List.zipWith_cons_cons, List.mem_cons] at hs
      rcases hs with hs | hs
      · subst hs
        rw [stripeBlend_size, transition]
        have ha := h1 a (List.mem_cons_self a l)
        have hb := h2 b (List.mem_cons_self b m)
        have hm1 := mul_nonneg ha (by linarith : (0 : ℚ) ≤ 1 - ep)
        have hm2 := mul_nonneg hb he0
        linarith
      · exact ih m (fun u hu => h1 u (List.mem_cons_of_mem a hu))
          (fun u hu => h2 u (List.mem_cons_of_mem b hu)) s hs

theorem transition_flags_stripes (f1 f2 : Flag) (p ep : ℚ) :
    (transition_flags f1 f2 p ep).1.stripes = combineStripes (outStripes f1 f2 ep) := rfl

/-- C4: with equal stripe counts, non-negative sizes summing to 1 on both
sides, and an eased percentage, the flag returned by `transition_flags`
has non-negative stripe sizes summing to 1, through both the affine blend
and the equal-color merge of the constructor. -/
theorem claim_C4 (f1 f2 : Flag) (p ep : ℚ)
    (hlen : f1.stripes.length = f2.stripes.length)
    (h1n : ∀ s ∈ f1.stripes, 0 ≤ s.size) (h1s : sizeSum f1.stripes = 1)
    (h2n : ∀ s ∈ f2.stripes, 0 ≤ s.size) (h2s : sizeSum f2.stripes = 1)
    (hep : Eased p ep) :
    (∀ s ∈ (transition_flags f1 f2 p ep).1.stripes, 0 ≤ s.size) ∧
    sizeSum (transition_flags f1 f2 p ep).1.stripes = 1 := by
  obtain ⟨he0, he1⟩ := Eased.bounds hep
  constructor
  · rw [transition_flags_stripes]
    exact combineStripes_nonneg
      (zipBlend_nonneg ep he0 he1 f1.stripes f2.stripes h1n h2n)
  · rw [transition_flags_stripes, combineStripes_sizeSum, outStripes,
      zipBlend_sizeSum ep _ _ hlen, h1s, h2s]
    ring

/-- Second two-stripe sample flag, with different sizes. -/
def sampleC : Flag := ⟨[⟨(0, 0, 1), 1 / 4⟩, ⟨(1, 1, 0), 3 / 4⟩], []⟩

theorem witness_C4 :
    sizeSum (transition_flags sampleA sampleC 0 0).1.stripes = 1 :=
  (claim_C4 sampleA sampleC 0 0 (by norm_num [sampleA, sampleC])
    (by norm_num [sampleA]) (by norm_num [sampleA, sizeSum])
    (by norm_num [sampleC]) (by norm_num [sampleC, sizeSum])
    eased_zero_zero).2

theorem zipBlend_map_size_zero :
    ∀ l1 l2 : List FlagStripe, l1.length = l2.length →
      (List.zipWith (stripeBlend 0) l1 l2).map FlagStripe.size =
        l1.map FlagStripe.size := by
  intro l1
  induction l1 with
  | nil => intro l2 _; simp
  | cons a l ih =>
    intro l2 h
    cases l2 with
    | nil => simp at h
    | cons b m =>
      rw [List.zipWith_cons_cons, List.map_cons, List.map_cons,
        ih m (by simpa using h), stripeBlend_size, transition]
      norm_num

theorem zipBlend_map_size_one :
    ∀ l1 l2 : List FlagStripe, l1.length = l2.length →
      (List.zipWith (stripeBlend 1) l1 l2).map FlagStripe.size =
        l2.map FlagStripe.size := by
  intro l1
  induction l1 with
  | nil =>
    intro l2 h
    cases l2 with
    | nil => simp
    | cons b m => simp at h
  | cons a l ih =>
    intro l2 h
    cases l2 with
    | nil => simp at h
    | cons b m =>
      rw [List.zipWith_cons_cons, List.map_cons, List.map_cons,
        ih m (by simpa using h), stripeBlend_size, transition]
      norm_num

theorem transition_flags_images1 (f1 f2 : Flag) (p ep : ℚ) :
    (transition_flags f1 f2 p ep).2.1.images =
      f1.images.map
        (mutateImage (pyInt (255 * (1 - p))) (midHeightFor f1 (outStripes f1 f2 ep))
          (transition (1 / 2) 0 ep)) := rfl

theorem transition_flags_images2 (f1 f2 : Flag) (p ep : ℚ) :
    (transition_flags f1 f2 p ep).2.2.images =
      f2.images.map
        (mutateImage (pyInt (255 * p)) (midHeightFor f2 (outStripes f1 f2 ep))
          (transition 0 (1 / 2) ep)) := rfl

theorem mutateImage_y_center {im : FlagImage} (hc : im.ftype = FType.center)
    (nOp : ℤ) (yC xL : ℚ) : (mutateImage nOp yC xL im).y = yC := by
  rw [mutateImage]
  simp [hc]

/-- C5: `transition_flags` gives every "center" overlay image of each input
flag the landmark height of its own flag, computed over the interpolated
stripes from that flag's midpoint; at percent 0 flag1's landmark height is
exactly 1/2, and at percent 1 flag2's landmark height is exactly 1/2. -/
theorem claim_C5 (f1 f2 : Flag) (p ep : ℚ)
    (hlen : f1.stripes.length = f2.stripes.length)
    (h1n : ∀ s ∈ f1.stripes, 0 ≤ s.size) (h1s : sizeSum f1.stripes = 1)
    (h2n : ∀ s ∈ f2.stripes, 0 ≤ s.size) (h2s : sizeSum f2.stripes = 1)
    (hep : Eased p ep) :
    (∀ (i : ℕ) (im im2 : FlagImage), f1.images.get? i = some im →
      (transition_flags f1 f2 p ep).2.1.images.get? i = some im2 →
      im.ftype = FType.center → im2.y = midHeightFor f1 (outStripes f1 f2 ep)) ∧
    (∀ (i : ℕ) (im im2 : FlagImage), f2.images.get? i = some im →
      (transition_flags f1 f2 p ep).2.2.images.get? i = some im2 →
      im.ftype = FType.center → im2.y = midHeightFor f2 (outStripes f1 f2 ep)) ∧
    (p = 0 → midHeightFor f1 (outStripes f1 f2 ep) = 1 / 2) ∧
    (p = 1 → midHeightFor f2 (outStripes f1 f2 ep) = 1 / 2) := by
  refine ⟨?_, ?_, ?_, ?_⟩
  · intro i im im2 h1 h2 hc
    rw [transition_flags_images1, List.get?_map, h1, Option.map_some'] at h2
    cases h2
    exact mutateImage_y_center hc _ _ _
  · intro i im im2 h1 h2 hc
    rw [transition_flags_images2, List.get?_map, h1, Option.map_some'] at h2
    cases h2
    exact mutateImage_y_center hc _ _ _
  · intro hp
    have hep0 : ep = 0 := eased_eq_zero (le_of_eq hp) hep
    subst hep0
    have hsz : (outStripes f1 f2 0).map FlagStripe.size = f1.stripes.map FlagStripe.size := by
      rw [outStripes]
      exact zipBlend_map_size_zero f1.stripes f2.stripes hlen
    rw [midHeightFor_eq_of_sizes f1 _ hsz]
    exact midpoint_height_eq_half f1 h1n h1s
  · intro hp
    have hep1 : ep = 1 := eased_eq_one (le_of_eq hp.symm) hep
    subst hep1
    have hsz : (outStripes f1 f2 1).map FlagStripe.size = f2.stripes.map FlagStripe.size := by
      rw [outStripes]
      exact zipBlend_map_size_one f1.stripes f2.stripes hlen
    rw [midHeightFor_eq_of_sizes f2 _ hsz]
    exact midpoint_height_eq_half f2 h2n h2s

theorem witness_C5 :
    midHeightFor sampleA (outStripes sampleA sampleC 0) = 1 / 2 :=
  (claim_C5 sampleA sampleC 0 0 (by norm_num [sampleA, sampleC])
    (by norm_num [sampleA]) (by norm_num [sampleA, sizeSum])
    (by norm_num [sampleC]) (by norm_num [sampleC, sizeSum])
    eased_zero_zero).2.2.1 rfl

theorem mutateImage_spec (nOp : ℤ) (yC xL : ℚ) (im : FlagImage) :
    imageMutated nOp yC xL im (mutateImage nOp yC xL im) := by
  obtain ⟨nm, x, y, o, sc, ft⟩ := im
  cases ft <;> simp [imageMutated, mutateImage]

theorem forall₂_map_self {α β : Type} (R : α → β → Prop) (f : α → β) :
    ∀ l : List α, (∀ a ∈ l, R a (f a)) → List.Forall₂ R l (l.map f) := by
  intro l
  induction l with
  | nil => intro _; exact List.Forall₂.nil
  | cons a l ih =>
    intro h
    rw [List.map_cons]
    exact List.Forall₂.cons (h a (List.mem_cons_self a l))
      (ih fun b hb => h b (List.mem_cons_of_mem a hb))

/-- C9: `transition_flags` leaves the stripes of both input flags
untouched and mutates exactly their overlay images: opacity always,
`y` only for "center" images, `x` only for "left" images, nothing but
opacity for "static" images; the returned flag carries exactly those
mutated image objects. -/
theorem claim_C9 (f1 f2 : Flag) (p ep : ℚ) :
    (transition_flags f1 f2 p ep).2.1.stripes = f1.stripes ∧
    (transition_flags f1 f2 p ep).2.2.stripes = f2.stripes ∧
    List.Forall₂
      (imageMutated (pyInt (255 * (1 - p))) (midHeightFor f1 (outStripes f1 f2 ep))
        (transition (1 / 2) 0 ep))
      f1.images (transition_flags f1 f2 p ep).2.1.images ∧
    List.Forall₂
      (imageMutated (pyInt (255 * p)) (midHeightFor f2 (outStripes f1 f2 ep))
        (transition 0 (1 / 2) ep))
      f2.images (transition_flags f1 f2 p ep).2.2.images ∧
    (transition_flags f1 f2 p ep).1.images =
      (transition_flags f1 f2 p ep).2.1.images ++
        (transition_flags f1 f2 p ep).2.2.images := by
  refine ⟨rfl, rfl, ?_, ?_, rfl⟩
  · rw [transition_flags_images1]
    exact forall₂_map_self _ _ f1.images fun im _ => mutateImage_spec _ _ _ im
  · rw [transition_flags_images2]
    exact forall₂_map_self _ _ f2.images fun im _ => mutateImage_spec _ _ _ im

theorem whileReduceZ_eq_emod :
    ∀ (k : ℕ) (i : ℤ), i.toNat ≤ k → 0 ≤ i → ∀ N : ℕ, 0 < N →
      whileReduceZ i N = i % (N : ℤ) := by
  intro k
  induction k with
  | zero =>
    intro i hk hi N hN
    have hz : i = 0 := by omega
    subst hz
    rw [whileReduceZ, dif_neg (by rintro ⟨h1, h2⟩; omega)]
    rw [Int.zero_emod]
  | succ k ih =>
    intro i hk hi N hN
    rw [whileReduceZ]
    by_cases hcond : 0 < N ∧ (N : ℤ) ≤ i
    · rw [dif_pos hcond]
      obtain ⟨-, hle⟩ := hcond
      rw [ih (i - N) (by omega) (by omega) N hN]
      rw [Int.sub_emod, Int.emod_self, sub_zero, Int.emod_emod_of_dvd _ dvd_rfl]
    · rw [dif_neg hcond]
      push_neg at hcond
      exact (Int.emod_eq_of_lt hi (hcond hN)).symm

theorem whileReduceZ_emod (i : ℤ) (N : ℕ) (hi : 0 ≤ i) (hN : 0 < N) :
    whileReduceZ i N = i % (N : ℤ) :=
  whileReduceZ_eq_emod i.toNat i le_rfl hi N hN

/-- C6: for non-negative time and a non-empty flag list, the
repeated-subtraction loops of `update` compute the floor of
`t / time_to_transition` modulo `N` and its successor modulo `N`, both
flag lookups succeed, and the flag after the last wraps to the first. -/
theorem claim_C6 (flags : List Flag) (t ttt : ℚ)
    (ht : 0 ≤ t) (httt : 0 < ttt) (hN : 0 < flags.length) :
    update_current_index t ttt flags.length =
      Int.floor (t / ttt) % (flags.length : ℤ) ∧
    update_next_index t ttt flags.length =
      (Int.floor (t / ttt) + 1) % (flags.length : ℤ) ∧
    (update_select flags t ttt).1 =
      flags.get? (Int.floor (t / ttt) % (flags.length : ℤ)).toNat ∧
    (update_select flags t ttt).2 =
      flags.get? ((Int.floor (t / ttt) + 1) % (flags.length : ℤ)).toNat ∧
    (update_select flags t ttt).1.isSome = true ∧
    (update_select flags t ttt).2.isSome = true ∧
    (update_current_index t ttt flags.length = (flags.length : ℤ) - 1 →
      update_next_index t ttt flags.length = 0) := by
  have hfl : (0 : ℤ) ≤ Int.floor (t / ttt) :=
    Int.floor_nonneg.mpr (div_nonneg ht (le_of_lt httt))
  have hNz : (0 : ℤ) < (flags.length : ℤ) := by exact_mod_cast hN
  have h1 : update_current_index t ttt flags.length =
      Int.floor (t / ttt) % (flags.length : ℤ) :=
    whileReduceZ_emod _ _ hfl hN
  have h2 : update_next_index t ttt flags.length =
      (Int.floor (t / ttt) + 1) % (flags.length : ℤ) :=
    whileReduceZ_emod _ _ (by omega) hN
  have hget : ∀ j : ℤ, 0 ≤ j % (flags.length : ℤ) → j % (flags.length : ℤ) <
      (flags.length : ℤ) → (flags.get? (j % (flags.length : ℤ)).toNat).isSome = true := by
    intro j hj1 hj2
    have hlt : (j % (flags.length : ℤ)).toNat < flags.length := by omega
    rw [List.get?_eq_get hlt]
    rfl
  refine ⟨h1, h2, ?_, ?_, ?_, ?_, ?_⟩
  · show flags.get? (update_current_index t ttt flags.length).toNat = _
    rw [h1]
  · show flags.get? (update_next_index t ttt flags.length).toNat = _
    rw [h2]
  · show (flags.get? (update_current_index t ttt flags.length).toNat).isSome = true
    rw [h1]
    exact hget _ (Int.emod_nonneg _ (ne_of_gt hNz)) (Int.emod_lt_of_pos _ hNz)
  · show (flags.get? (update_next_index t ttt flags.length).toNat).isSome = true
    rw [h2]
    exact hget _ (Int.emod_nonneg _ (ne_of_gt hNz)) (Int.emod_lt_of_pos _ hNz)
  · intro hcur
    rw [h1] at hcur
    rw [h2]
    have hmodeq : Int.ModEq (flags.length : ℤ) (Int.floor (t / ttt))
        ((flags.length : ℤ) - 1) := by
      show Int.floor (t / ttt) % _ = _ % _
      rw [hcur, Int.emod_eq_of_lt (by omega) (by omega)]
    have h3 := hmodeq.add_right 1
    have h4 : ((flags.length : ℤ) - 1 + 1) = (flags.length : ℤ) := by ring
    calc (Int.floor (t / ttt) + 1) % (flags.length : ℤ)
        = ((flags.length : ℤ) - 1 + 1) % (flags.length : ℤ) := h3
      _ = (flags.length : ℤ) % (flags.length : ℤ) := by rw [h4]
      _ = 0 := Int.emod_self

/-- The flag list used by the C6 witness. -/
def sampleFlags : List Flag := [sampleA, sampleC]

theorem witness_C6 :
    update_current_index 3 1 sampleFlags.length =
      Int.floor ((3 : ℚ) / 1) % (sampleFlags.length : ℤ) ∧
    update_next_index 3 1 sampleFlags.length =
      (Int.floor ((3 : ℚ) / 1) + 1) % (sampleFlags.length : ℤ) := by
  have h := claim_C6 sampleFlags 3 1 (by norm_num) (by norm_num)
    (by norm_num [sampleFlags])
  exact ⟨h.1, h.2.1⟩

theorem split_deficit_bound {k n : ℕ} (hk : 0 < k) (hn : k < n) :
    n - k ≤ k * (ceilDiv n k - 1) := by
  have hsb : 1 ≤ ceilDiv n k := ceilDiv_pos hk (by omega)
  have hmul := le_mul_ceilDiv n k hk
  obtain ⟨m, hm⟩ := Nat.exists_eq_add_of_le hsb
  rw [hm]
  have hone : 1 + m - 1 = m := by omega
  rw [hone]
  rw [hm, Nat.mul_add, Nat.mul_one] at hmul
  omega

theorem Refines_nonneg {a b : List FlagStripe} (h : Refines a b) :
    ∀ s ∈ b, 0 ≤ s.size := by
  induction h with
  | nil => intro s hs; simp at hs
  | cons s ps rest out hne hcol hsum hrec ih =>
    intro u hu
    rw [List.mem_append] at hu
    rcases hu with hu | hu
    · exact (hcol u hu).2
    · exact ih u hu

theorem Flag.split_full (f : Flag) (n : ℕ) (hk : 0 < f.stripes.length)
    (hn : f.stripes.length < n) (hnn : ∀ s ∈ f.stripes, 0 ≤ s.size) :
    ∃ g : Flag, f.split n = some g ∧ g.stripes.length = n ∧
      sizeSum g.stripes = sizeSum f.stripes ∧ ∀ s ∈ g.stripes, 0 ≤ s.size := by
  have hsb : 1 ≤ ceilDiv n f.stripes.length := ceilDiv_pos hk (by omega)
  have href := splitLoop_refines _ hsb f.stripes (n - f.stripes.length) hnn
  refine ⟨_, Flag.split_eq hn hk, ?_, Refines_sizeSum href, Refines_nonneg href⟩
  show (splitLoop (ceilDiv n f.stripes.length) f.stripes (n - f.stripes.length)).length = n
  rw [splitLoop_length _ hsb f.stripes _ (split_deficit_bound hk hn)]
  omega

theorem Flag.midpoint_lt (f : Flag)
    (hnn : ∀ s ∈ f.stripes, 0 ≤ s.size) (hs : sizeSum f.stripes = 1) :
    f.midpoint.1 < f.stripes.length := by
  obtain ⟨_, _, hlt, _, _, _⟩ :=
    midpointAux_spec f.stripes 0 0 hnn le_rfl (by norm_num) (by rw [hs]; norm_num)
  simpa using hlt

/-- C10: `update` always hands `transition_flags` two flags of equal
stripe count, splitting the one with fewer stripes first; with sizes
non-negative and summing to 1 in both flags, every list access inside
`transition_flags` is then within bounds. -/
theorem claim_C10 (cf nf : Flag)
    (hc : 0 < cf.stripes.length) (hn : 0 < nf.stripes.length)
    (hcn : ∀ s ∈ cf.stripes, 0 ≤ s.size) (hcs : sizeSum cf.stripes = 1)
    (hnn : ∀ s ∈ nf.stripes, 0 ≤ s.size) (hns : sizeSum nf.stripes = 1) :
    (update_equalize cf nf).isSome = true ∧
    ∀ a b : Flag, update_equalize cf nf = some (a, b) →
      a.stripes.length = b.stripes.length ∧ transitionAccessesOk a b := by
  rcases lt_trichotomy nf.stripes.length cf.stripes.length with hlt | heq | hgt
  · obtain ⟨g, hg, hglen, hgsum, hgnn⟩ := Flag.split_full nf cf.stripes.length hn hlt hnn
    have heq2 : update_equalize cf nf = some (cf, g) := by
      rw [update_equalize, if_pos hlt, hg]
      rfl
    refine ⟨by rw [heq2]; rfl, ?_⟩
    intro a b hab
    rw [heq2] at hab
    simp only [Option.some.injEq, Prod.mk.injEq] at hab
    obtain ⟨ha, hb⟩ := hab
    subst ha
    subst hb
    have hbmid : g.midpoint.1 < g.stripes.length :=
      Flag.midpoint_lt g hgnn (by rw [hgsum, hns])
    have hamid : cf.midpoint.1 < cf.stripes.length := Flag.midpoint_lt cf hcn hcs
    refine ⟨hglen.symm, le_of_eq hglen.symm, ?_, ?_⟩
    · rw [hglen, min_self]
      omega
    · rw [hglen, min_self]
      exact hamid
  · have heq2 : update_equalize cf nf = some (cf, nf) := by
      rw [update_equalize, if_neg (by omega), if_neg (by omega)]
    refine ⟨by rw [heq2]; rfl, ?_⟩
    intro a b hab
    rw [heq2] at hab
    simp only [Option.some.injEq, Prod.mk.injEq] at hab
    obtain ⟨ha, hb⟩ := hab
    subst ha
    subst hb
    have hamid : cf.midpoint.1 < cf.stripes.length := Flag.midpoint_lt cf hcn hcs
    have hbmid : nf.midpoint.1 < nf.stripes.length := Flag.midpoint_lt nf hnn hns
    refine ⟨heq.symm, le_of_eq heq.symm, ?_, ?_⟩
    · rw [heq, min_self]
      rw [heq] at hbmid
      exact hbmid
    · rw [heq, min_self]
      exact hamid
  · obtain ⟨g, hg, hglen, hgsum, hgnn⟩ := Flag.split_full cf nf.stripes.length hc hgt hcn
    have heq2 : update_equalize cf nf = some (g, nf) := by
      rw [update_equalize, if_neg (by omega), if_pos hgt, hg]
      rfl
    refine ⟨by rw [heq2]; rfl, ?_⟩
    intro a b hab
    rw [heq2] at hab
    simp only [Option.some.injEq, Prod.mk.injEq] at hab
    obtain ⟨ha, hb⟩ := hab
    subst ha
    subst hb
    have hamid : g.midpoint.1 < g.stripes.length :=
      Flag.midpoint_lt g hgnn (by rw [hgsum, hcs])
    have hbmid : nf.midpoint.1 < nf.stripes.length := Flag.midpoint_lt nf hnn hns
    refine ⟨hglen, le_of_eq hglen, ?_, ?_⟩
    · rw [hglen, min_self]
      exact hbmid
    · rw [hglen, min_self]
      rw [hglen] at hamid
      exact hamid

theorem witness_C10 :
    (update_equalize sampleA sampleC).isSome = true ∧
    sampleA.stripes.length = sampleC.stripes.length ∧
    transitionAccessesOk sampleA sampleC := by
  have h := claim_C10 sampleA sampleC (by norm_num [sampleA]) (by norm_num [sampleC])
    (by norm_num [sampleA]) (by norm_num [sampleA, sizeSum])
    (by norm_num [sampleC]) (by norm_num [sampleC, sizeSum])
  have heqv : update_equalize sampleA sampleC = some (sampleA, sampleC) := by
    rw [update_equalize, if_neg (by norm_num [sampleA, sampleC]),
      if_neg (by norm_num [sampleA, sampleC])]
  obtain ⟨hl, hok⟩ := h.2 sampleA sampleC heqv
  exact ⟨h.1, hl, hok⟩

end AnimatedPrideFlags
